import Mathlib

/-!
Verification of the chart-utility core of the shadcn-chart repository.

The embedded functions come from:
* `src/registry/new-york/line-chart/line-chart.tsx`:
  `getNiceStepSize`, `calculateYAxisTicks`, `calculateNiceYDomain`, and the
  `yDomain` / `yAxisTicks` option resolution inside `LineChartComponent`.
* `src/unnamed/part_000` (area chart component): the `normalizedData`
  percentage normalizer for the stacked-expanded variant.

JavaScript numbers are modelled by exact rationals (`ℚ`).  Chart data points
(`Record<string, string | number>`) are modelled as association lists over a
value type `JSVal` that is either a number or a non-numeric string label
(the x-axis category labels such as "Jan"); comments at each definition
record how the JavaScript coercions and `NaN`/`Infinity` cases are mapped.
-/

/-- A chart data value: either a number or a (non-numeric) string label,
modelling the `string | number` value type of the data records. -/
inductive JSVal where
  | num (q : ℚ)
  | str (s : String)
deriving DecidableEq, Repr

/-- A series point: a record from keys to values, modelled as an association
list (`Record<string, string | number>`). -/
abbrev Point := List (String × JSVal)

/-- Models the `typeof`-guarded read of `calculateNiceYDomain`
(line-chart.tsx line 153): a missing key or a value that is not a number is
treated as 0. -/
def getNum (item : Point) (key : String) : ℚ :=
  match item.lookup key with
  | some (JSVal.num q) => q
  | _ => 0

/-- Models `Number(item[key]) || 0` from the area-chart `normalizedData`
(part_000 line 163): a missing key gives `Number(undefined) = NaN`, and a
non-numeric string label gives `NaN`; `NaN || 0` is `0`.  A number `q` gives
`q` (`0 || 0 = 0`). -/
def numOr0 : Option JSVal → ℚ
  | some (JSVal.num q) => q
  | _ => 0

-- ==== line-chart.tsx lines 107-119: getNiceStepSize ====

/-- `getNiceStepSize(range, targetSteps)` (line-chart.tsx lines 107-119).

`Math.pow(10, Math.floor(Math.log10(rawStep)))` is, for `rawStep > 0`,
exactly `10 ^ Int.log 10 rawStep`.  (For `rawStep ≤ 0` the JavaScript
computation is `NaN`-valued; the only caller guards against that case, see
`calculateYAxisTicks`.) -/
def getNiceStepSize (range targetSteps : ℚ) : ℚ :=
  let rawStep := range / targetSteps
  let magnitude : ℚ := (10 : ℚ) ^ (Int.log 10 rawStep)
  let normalizedStep := rawStep / magnitude
  let niceStep : ℚ :=
    if normalizedStep ≤ 1 then 1
    else if normalizedStep ≤ 2 then 2
    else if normalizedStep ≤ 5 then 5
    else 10
  niceStep * magnitude

-- ==== line-chart.tsx lines 121-145: calculateYAxisTicks ====

/-- The `while` loop of `calculateYAxisTicks` (line-chart.tsx lines 130-136):

```
while (currentTick <= max && ticks.length < tickCount * 2) {
    if (currentTick >= min) ticks.push(currentTick)
    currentTick += step
}
```

The extra conjunct `0 < step` makes the recursion well-founded; at the only
call site the step is positive (`getNiceStepSize_pos` below), so there the
condition agrees with the source condition. -/
def tickLoop (mn mx step : ℚ) (cap : ℕ) (curr : ℚ) (acc : List ℚ) : List ℚ :=
  if h : 0 < step ∧ curr ≤ mx ∧ acc.length < cap then
    tickLoop mn mx step cap (curr + step) (if mn ≤ curr then acc ++ [curr] else acc)
  else acc
termination_by (⌈(mx - curr) / step⌉ + 1).toNat
decreasing_by
  obtain ⟨hs, hc, -⟩ := h
  have hx : (0:ℚ) ≤ (mx - curr) / step := div_nonneg (by linarith) (le_of_lt hs)
  have he : (mx - (curr + step)) / step = (mx - curr) / step - 1 := by
    field_simp
    ring
  rw [he, Int.ceil_sub_one]
  have h0 : 0 ≤ ⌈(mx - curr) / step⌉ := Int.ceil_nonneg hx
  omega

/-- The step used by `calculateYAxisTicks` (line-chart.tsx line 126):
`getNiceStepSize(max - min, tickCount - 1)`. -/
def stepSize (mn mx : ℚ) (tickCount : ℕ) : ℚ :=
  getNiceStepSize (mx - mn) ((tickCount : ℚ) - 1)

/-- The tick list produced by the `while` walk of `calculateYAxisTicks`
(line-chart.tsx lines 126-136), before the extra-tick heuristic:
`niceMin = Math.floor(min / step) * step`, then the walk from `niceMin`. -/
def walkedTicks (mn mx : ℚ) (tickCount : ℕ) : List ℚ :=
  let step := stepSize mn mx tickCount
  let niceMin : ℚ := (⌊mn / step⌋ : ℚ) * step
  tickLoop mn mx step (tickCount * 2) niceMin []

/-- `calculateYAxisTicks(domain, tickCount, dataMax)` (line-chart.tsx lines
121-145).

The source branches:
* `if (tickCount <= 1) return [min]` — first branch.
* When `min < max` everything is a genuine real computation: walk, then the
  extra-tick heuristic on `ticks[ticks.length - 1]` (`getLast?`; for an empty
  walk the source reads `undefined`, the comparisons on `NaN` are false and
  the list is returned unchanged, which is the `none` case here).
* When `max <= min` (range `<= 0`) the source computes `step = 0` (range 0)
  or `step = NaN` (range negative), so `niceMin = NaN`, the `while`
  condition `NaN <= max` is false at once, `ticks` stays empty, and the
  `NaN` comparisons skip the extra tick: the result is `[]`, the last
  branch here. -/
def calculateYAxisTicks (mn mx : ℚ) (tickCount : ℕ) (dataMax : ℚ) : List ℚ :=
  if tickCount ≤ 1 then [mn]
  else if mn < mx then
    let step := stepSize mn mx tickCount
    let ticks := walkedTicks mn mx tickCount
    match ticks.getLast? with
    | some lastTick =>
        if 0 < dataMax - lastTick ∧ dataMax - lastTick < step * (1/10) then
          ticks ++ [lastTick + step]
        else ticks
    | none => ticks
  else []

-- ==== line-chart.tsx lines 148-177: calculateNiceYDomain ====

/-- One `Math.min(acc, v)` update of the scan (line-chart.tsx line 154),
with `none` modelling the `Infinity` start value. -/
def jsMin (acc : Option ℚ) (v : ℚ) : Option ℚ :=
  match acc with
  | none => some v
  | some m => some (min m v)

/-- One `Math.max(acc, v)` update of the scan (line-chart.tsx line 155),
with `none` modelling the `-Infinity` start value. -/
def jsMax (acc : Option ℚ) (v : ℚ) : Option ℚ :=
  match acc with
  | none => some v
  | some m => some (max m v)

/-- The minimum scanned by `calculateNiceYDomain` (line-chart.tsx lines
149-157): fold of `Math.min` over every `(item, key)` value, starting from
`Infinity` (`none`). -/
def scanMin (data : List Point) (dataKeys : List String) : Option ℚ :=
  data.foldl (fun acc item => dataKeys.foldl (fun a k => jsMin a (getNum item k)) acc) none

/-- The maximum scanned by `calculateNiceYDomain` (line-chart.tsx lines
149-157): fold of `Math.max` over every `(item, key)` value, starting from
`-Infinity` (`none`). -/
def scanMax (data : List Point) (dataKeys : List String) : Option ℚ :=
  data.foldl (fun acc item => dataKeys.foldl (fun a k => jsMax a (getNum item k)) acc) none

/-- `getRoundingFactor` (line-chart.tsx lines 166-171). -/
def getRoundingFactor (value : ℚ) : ℚ :=
  if value ≤ 100 then 10
  else if value ≤ 1000 then 100
  else if value ≤ 10000 then 500
  else if value ≤ 50000 then 1000
  else 5000

/-- The padding step of `calculateNiceYDomain` (line-chart.tsx lines
161-163): `range = max - min`, `paddedMin = Math.max(0, min - range*padding)`,
`paddedMax = max + range*padding`.  This is the `padDomain` component of the
specification. -/
def padDomain (mn mx padding : ℚ) : ℚ × ℚ :=
  let range := mx - mn
  (max 0 (mn - range * padding), mx + range * padding)

/-- The padding-and-rounding tail of `calculateNiceYDomain` (line-chart.tsx
lines 161-176), applied once the scan found a finite minimum and maximum. -/
def niceDomainFrom (mn mx padding : ℚ) : ℚ × ℚ :=
  let p := padDomain mn mx padding
  let niceMin : ℚ := (⌊p.1 / getRoundingFactor p.1⌋ : ℚ) * getRoundingFactor p.1
  let niceMax : ℚ := (⌈p.2 / getRoundingFactor p.2⌉ : ℚ) * getRoundingFactor p.2
  (niceMin, niceMax)

/-- `calculateNiceYDomain(data, dataKeys, padding)` (line-chart.tsx lines
148-177).  The source check `if (min === Infinity || max === -Infinity)
return [0, 100]` is the `none` case of the scans (the two scans are `none`
together).  The source default argument `padding = 0.1` is applied by the
caller; the function is always called with an explicit padding by
`LineChartComponent` (see `resolvedPadding`). -/
def calculateNiceYDomain (data : List Point) (dataKeys : List String) (padding : ℚ) : ℚ × ℚ :=
  match scanMin data dataKeys, scanMax data dataKeys with
  | some mn, some mx => niceDomainFrom mn mx padding
  | _, _ => (0, 100)

-- ==== line-chart.tsx lines 179-227: option resolution in LineChartComponent ====

/-- The `yAxisConfig` prop of `LineChartComponent` (line-chart.tsx lines
35-42), restricted to the fields the domain/tick computation reads.
`domain? = none` models both an absent `domain` and the string `"auto"`
(the source treats them alike: `yAxisConfig?.domain && yAxisConfig.domain
!== "auto"`). -/
structure YAxisCfg where
  domain? : Option (ℚ × ℚ)
  padding? : Option ℚ
  tickCount? : Option ℚ

/-- JavaScript `x || d` on an optionally-present number: `undefined` and `0`
are falsy, every other number is returned as is. -/
def jsOr (x : Option ℚ) (d : ℚ) : ℚ :=
  match x with
  | none => d
  | some v => if v = 0 then d else v

/-- `const padding = yAxisConfig?.padding || 0.15` (line-chart.tsx line 213). -/
def resolvedPadding (cfg : Option YAxisCfg) : ℚ :=
  jsOr (cfg.bind YAxisCfg.padding?) (3/20)

/-- `const tickCount = yAxisConfig?.tickCount || 6` (line-chart.tsx line 219). -/
def resolvedTickCount (cfg : Option YAxisCfg) : ℚ :=
  jsOr (cfg.bind YAxisCfg.tickCount?) 6

/-- The `yDomain` memo of `LineChartComponent` (line-chart.tsx lines
206-215): an explicit numeric `domain` wins, otherwise
`calculateNiceYDomain(data, dataKeys, padding)` with the resolved padding. -/
def yDomain (data : List Point) (dataKeys : List String) (cfg : Option YAxisCfg) : ℚ × ℚ :=
  match cfg.bind YAxisCfg.domain? with
  | some d => d
  | none => calculateNiceYDomain data dataKeys (resolvedPadding cfg)

-- ==== part_000 lines 156-173: normalizedData (percentage normalizer) ====

/-- One JavaScript object write `newItem[key] = v`: if the key is present,
every entry with that key is overwritten (a JavaScript object stores a key
once, duplicates in the association list only arise as equal copies);
otherwise the key/value pair is appended. -/
def objSet (p : Point) (k : String) (v : JSVal) : Point :=
  if (p.lookup k).isSome then
    p.map (fun kv => if kv.1 = k then (k, v) else kv)
  else p ++ [(k, v)]

/-- `const total = dataKeys.reduce((sum, key) => sum + (Number(item[key]) || 0), 0)`
(part_000 line 163). -/
def pointTotal (item : Point) (dataKeys : List String) : ℚ :=
  dataKeys.foldl (fun sum k => sum + numOr0 (item.lookup k)) 0

/-- The per-point body of `normalizedData` (part_000 lines 160-171):
copy the item, and when `total > 0` overwrite every data key with
`(Number(item[key]) || 0) / total * 100` (the reads are from the original
`item`, the writes go to the copy). -/
def normalizePoint (item : Point) (dataKeys : List String) : Point :=
  let total := pointTotal item dataKeys
  if 0 < total then
    dataKeys.foldl
      (fun newItem k => objSet newItem k (JSVal.num (numOr0 (item.lookup k) / total * 100)))
      item
  else item

/-- The `normalizedData` transform of the area chart for the
`stacked-expanded` variant (part_000 lines 157-173): `data.map` of
`normalizePoint`. -/
def normalizedData (data : List Point) (dataKeys : List String) : List Point :=
  data.map (fun item => normalizePoint item dataKeys)

-- ==== Helper lemmas ====

/-- Characterisation used to evaluate `Int.log 10` at concrete rationals. -/
lemma int_log10_eq {r : ℚ} {k : ℤ} (hr : 0 < r)
    (h1 : (10:ℚ)^k ≤ r) (h2 : r < (10:ℚ)^(k+1)) : Int.log 10 r = k := by
  have hb : 1 < (10:ℕ) := by norm_num
  have ha : k ≤ Int.log 10 r := by
    rw [← Int.zpow_le_iff_le_log hb hr]
    push_cast
    exact h1
  have hc : Int.log 10 r < k + 1 := by
    rw [← Int.lt_zpow_iff_log_lt hb hr]
    push_cast
    exact h2
  omega

/-- The step selector returns a positive step whenever its range and its
target step count are positive. -/
lemma getNiceStepSize_pos {range targetSteps : ℚ}
    (hr : 0 < range) (ht : 0 < targetSteps) : 0 < getNiceStepSize range targetSteps := by
  unfold getNiceStepSize
  have hraw : 0 < range / targetSteps := div_pos hr ht
  have hmag : 0 < (10 : ℚ) ^ (Int.log 10 (range / targetSteps)) :=
    zpow_pos (by norm_num) _
  have hnice : (0:ℚ) <
      (if range / targetSteps / (10:ℚ) ^ (Int.log 10 (range / targetSteps)) ≤ 1 then (1:ℚ)
       else if range / targetSteps / (10:ℚ) ^ (Int.log 10 (range / targetSteps)) ≤ 2 then 2
       else if range / targetSteps / (10:ℚ) ^ (Int.log 10 (range / targetSteps)) ≤ 5 then 5
       else 10) := by
    split
    · norm_num
    · split
      · norm_num
      · split
        · norm_num
        · norm_num
  simpa using mul_pos hnice hmag

/-- In a strictly sorted list every element is at most the last one. -/
lemma sorted_le_getLast :
    ∀ (l : List ℚ), l.Sorted (· < ·) → ∀ (b : ℚ), l.getLast? = some b →
      ∀ a ∈ l, a ≤ b := by
  intro l
  induction l with
  | nil =>
    intro _ b hb
    simp at hb
  | cons x xs ih =>
    intro hs b hb a ha
    cases xs with
    | nil =>
      simp at hb ha
      simp [ha, hb]
    | cons y ys =>
      rw [List.getLast?_cons_cons] at hb
      rcases List.mem_cons.1 ha with hax | hax
      · subst hax
        have hbmem : b ∈ y :: ys := List.mem_of_mem_getLast? hb
        have := (List.sorted_cons.1 hs).1 b hbmem
        exact le_of_lt this
      · exact ih (List.sorted_cons.1 hs).2 b hb a hax

/-- Invariants of the tick walk: starting from a strictly sorted accumulator
whose elements are at least `mn` and below the current position, the walk
returns a strictly sorted list of elements at least `mn`, of length at most
`max acc.length cap`. -/
lemma tickLoop_props (mn mx step : ℚ) (cap : ℕ) :
    ∀ (curr : ℚ) (acc : List ℚ), acc.Sorted (· < ·) → (∀ a ∈ acc, mn ≤ a) →
      (∀ a ∈ acc, a < curr) →
      ((tickLoop mn mx step cap curr acc).Sorted (· < ·)
        ∧ (∀ a ∈ tickLoop mn mx step cap curr acc, mn ≤ a)
        ∧ (tickLoop mn mx step cap curr acc).length ≤ max acc.length cap) := by
  intro curr acc
  induction curr, acc using tickLoop.induct mn mx step cap with
  | case1 curr acc h ih =>
    intro hs hge hlt
    rw [tickLoop, dif_pos h]
    obtain ⟨hstep, hcm, hlen⟩ := h
    by_cases hpush : mn ≤ curr
    · rw [if_pos hpush]
      rw [dif_pos hpush] at ih
      have hs' : (acc ++ [curr]).Sorted (· < ·) := by
        rw [List.Sorted, List.pairwise_append]
        refine ⟨hs, by simp, ?_⟩
        intro a ha b hb
        rw [List.mem_singleton] at hb
        subst hb
        exact hlt a ha
      have hge' : ∀ a ∈ acc ++ [curr], mn ≤ a := by
        intro a ha
        rcases List.mem_append.1 ha with h1 | h1
        · exact hge a h1
        · rw [List.mem_singleton] at h1
          subst h1
          exact hpush
      have hlt' : ∀ a ∈ acc ++ [curr], a < curr + step := by
        intro a ha
        rcases List.mem_append.1 ha with h1 | h1
        · linarith [hlt a h1]
        · rw [List.mem_singleton] at h1
          subst h1
          linarith
      obtain ⟨r1, r2, r3⟩ := ih hs' hge' hlt'
      refine ⟨r1, r2, ?_⟩
      have : (acc ++ [curr]).length = acc.length + 1 := by simp
      rw [this] at r3
      omega
    · rw [if_neg hpush]
      rw [dif_neg hpush] at ih
      have hlt' : ∀ a ∈ acc, a < curr + step := by
        intro a ha
        linarith [hlt a ha]
      exact ih hs hge hlt'
  | case2 curr acc h =>
    intro hs hge _
    rw [tickLoop, dif_neg h]
    exact ⟨hs, hge, le_max_left _ _⟩

/-- `getNiceStepSize(100, 5)`: `rawStep = 20`, `magnitude = 10`,
`normalized = 2`, `niceStep = 2`, result `20`. -/
lemma getNiceStepSize_100_5 : getNiceStepSize 100 5 = 20 := by
  have hl : Int.log 10 ((100:ℚ)/5) = 1 :=
    int_log10_eq (by norm_num) (by norm_num) (by norm_num)
  simp only [getNiceStepSize, hl]
  norm_num

/-- `getNiceStepSize(2.1, 1)`: `rawStep = 2.1`, `magnitude = 1`,
`normalized = 2.1`, `niceStep = 5`, result `5`. -/
lemma getNiceStepSize_21_10_1 : getNiceStepSize (21/10) 1 = 5 := by
  have hl : Int.log 10 ((21:ℚ)/10/1) = 0 :=
    int_log10_eq (by norm_num) (by norm_num) (by norm_num)
  simp only [getNiceStepSize, hl]
  norm_num

/-- `getNiceStepSize(100, 1)`: `rawStep = 100`, `magnitude = 100`,
`normalized = 1`, `niceStep = 1`, result `100`. -/
lemma getNiceStepSize_100_1 : getNiceStepSize 100 1 = 100 := by
  have hl : Int.log 10 ((100:ℚ)/1) = 2 :=
    int_log10_eq (by norm_num) (by norm_num) (by norm_num)
  simp only [getNiceStepSize, hl]
  norm_num

lemma stepSize_0_100_6 : stepSize 0 100 6 = 20 := by
  have h1 : ((6:ℕ):ℚ) - 1 = 5 := by norm_num
  rw [stepSize, show (100:ℚ) - 0 = 100 by norm_num, h1, getNiceStepSize_100_5]

/-- The walk for domain `(0, 100)` with `tickCount = 6`: step 20, ticks
`[0, 20, 40, 60, 80, 100]`. -/
lemma walkedTicks_0_100_6 : walkedTicks 0 100 6 = [0, 20, 40, 60, 80, 100] := by
  simp only [walkedTicks, stepSize_0_100_6]
  norm_num
  rw [tickLoop, dif_pos (by norm_num)]
  norm_num
  rw [tickLoop, dif_pos (by norm_num)]
  norm_num
  rw [tickLoop, dif_pos (by norm_num)]
  norm_num
  rw [tickLoop, dif_pos (by norm_num)]
  norm_num
  rw [tickLoop, dif_pos (by norm_num)]
  norm_num
  rw [tickLoop, dif_pos (by norm_num)]
  norm_num
  rw [tickLoop, dif_neg (by norm_num)]

lemma stepSize_6_81_10_2 : stepSize 6 (81/10) 2 = 5 := by
  have h1 : ((2:ℕ):ℚ) - 1 = 1 := by norm_num
  rw [stepSize, show (81:ℚ)/10 - 6 = 21/10 by norm_num, h1, getNiceStepSize_21_10_1]

/-- The walk for domain `(6, 8.1)` with `tickCount = 2`: step 5,
`niceMin = 5`, the walk visits 5 (below the minimum, skipped) and 10
(above the maximum, loop exit) and produces no tick at all. -/
lemma walkedTicks_6_81_10_2 : walkedTicks 6 (81/10) 2 = [] := by
  simp only [walkedTicks, stepSize_6_81_10_2]
  norm_num
  rw [tickLoop, dif_pos (by norm_num)]
  norm_num
  rw [tickLoop, dif_neg (by norm_num)]

lemma stepSize_0_100_2 : stepSize 0 100 2 = 100 := by
  have h1 : ((2:ℕ):ℚ) - 1 = 1 := by norm_num
  rw [stepSize, show (100:ℚ) - 0 = 100 by norm_num, h1, getNiceStepSize_100_1]

/-- The walk for domain `(0, 100)` with `tickCount = 2`: step 100, ticks
`[0, 100]`. -/
lemma walkedTicks_0_100_2 : walkedTicks 0 100 2 = [0, 100] := by
  simp only [walkedTicks, stepSize_0_100_2]
  norm_num
  rw [tickLoop, dif_pos (by norm_num)]
  norm_num
  rw [tickLoop, dif_pos (by norm_num)]
  norm_num
  rw [tickLoop, dif_neg (by norm_num)]

/-- Invariants of the full walk from `niceMin`: strictly sorted, every
element at least the domain minimum, length at most `2 * tickCount`. -/
lemma walkedTicks_props (mn mx : ℚ) (tickCount : ℕ) :
    (walkedTicks mn mx tickCount).Sorted (· < ·)
    ∧ (∀ a ∈ walkedTicks mn mx tickCount, mn ≤ a)
    ∧ (walkedTicks mn mx tickCount).length ≤ 2 * tickCount := by
  have h := tickLoop_props mn mx (stepSize mn mx tickCount) (tickCount * 2)
    ((⌊mn / stepSize mn mx tickCount⌋ : ℚ) * stepSize mn mx tickCount) []
    (by simp) (by simp) (by simp)
  simp only [walkedTicks]
  obtain ⟨h1, h2, h3⟩ := h
  refine ⟨h1, h2, ?_⟩
  simp only [List.length_nil] at h3
  omega

-- ==== Claim C1 ====

/-- Claim C1, counterexample: for the domain `(6, 8.1)` (so `min <= max`),
tick count 2 and data maximum 8.1, the tick generator returns the empty
list, so the claimed guarantee that the returned sequence has at least one
element is false. -/
theorem claim1_counterexample :
    (6:ℚ) ≤ 81/10 ∧ calculateYAxisTicks 6 (81/10) 2 (81/10) = [] := by
  constructor
  · norm_num
  · simp only [calculateYAxisTicks, walkedTicks_6_81_10_2]
    norm_num

/-- Claim C1, amended: for every domain with `min ≤ max`, every tick count
and every data maximum, the returned sequence is strictly ascending, every
element lies in `[min, +∞)`, and its length is at most `2 * tickCount + 1`
— but it can be empty. -/
theorem claim1_amended (mn mx dataMax : ℚ) (tickCount : ℕ) (hmm : mn ≤ mx) :
    (calculateYAxisTicks mn mx tickCount dataMax).Sorted (· < ·)
    ∧ (∀ a ∈ calculateYAxisTicks mn mx tickCount dataMax, mn ≤ a)
    ∧ (calculateYAxisTicks mn mx tickCount dataMax).length ≤ 2 * tickCount + 1 := by
  by_cases h1 : tickCount ≤ 1
  · simp only [calculateYAxisTicks, if_pos h1]
    refine ⟨List.sorted_singleton mn, ?_, by simp⟩
    intro a ha
    rw [List.mem_singleton] at ha
    simp [ha]
  · by_cases h2 : mn < mx
    · obtain ⟨hw1, hw2, hw3⟩ := walkedTicks_props mn mx tickCount
      have hstep : 0 < stepSize mn mx tickCount := by
        have h2t : 2 ≤ tickCount := by omega
        have h2q : (2:ℚ) ≤ (tickCount : ℚ) := by exact_mod_cast h2t
        exact getNiceStepSize_pos (by linarith) (by linarith)
      simp only [calculateYAxisTicks, if_neg h1, if_pos h2]
      cases hg : (walkedTicks mn mx tickCount).getLast? with
      | none =>
        dsimp only
        exact ⟨hw1, hw2, by omega⟩
      | some lastTick =>
        dsimp only
        by_cases hcond : 0 < dataMax - lastTick
            ∧ dataMax - lastTick < stepSize mn mx tickCount * (1/10)
        · rw [if_pos hcond]
          have hlastmem : lastTick ∈ walkedTicks mn mx tickCount :=
            List.mem_of_mem_getLast? hg
          have hle : ∀ a ∈ walkedTicks mn mx tickCount, a ≤ lastTick :=
            sorted_le_getLast _ hw1 _ hg
          refine ⟨?_, ?_, ?_⟩
          · rw [List.Sorted, List.pairwise_append]
            refine ⟨hw1, by simp, ?_⟩
            intro a ha b hb
            rw [List.mem_singleton] at hb
            subst hb
            have := hle a ha
            linarith
          · intro a ha
            rcases List.mem_append.1 ha with ha | ha
            · exact hw2 a ha
            · rw [List.mem_singleton] at ha
              subst ha
              have := hw2 lastTick hlastmem
              linarith
          · rw [List.length_append]
            simp only [List.length_singleton]
            omega
        · rw [if_neg hcond]
          exact ⟨hw1, hw2, by omega⟩
    · simp only [calculateYAxisTicks, if_neg h1, if_neg h2]
      exact ⟨List.sorted_nil, by simp, by simp⟩

/-- Claim C1, witness for the amended theorem at the domain `(0, 100)`,
tick count 6, data maximum 97. -/
theorem claim1_amended_witness :
    (calculateYAxisTicks 0 100 6 97).Sorted (· < ·)
    ∧ (∀ a ∈ calculateYAxisTicks 0 100 6 97, (0:ℚ) ≤ a)
    ∧ (calculateYAxisTicks 0 100 6 97).length ≤ 2 * 6 + 1 :=
  claim1_amended 0 100 97 6 (by norm_num)

-- ==== Claim C3 ====

/-- Claim C3, counterexample: `getNiceStepSize(100, 5)` returns 20, not the
claimed 50 (the claimed intermediate `rawStep = 25` is not `100 / 5`). -/
theorem claim3_counterexample :
    getNiceStepSize 100 5 = 20 ∧ (20:ℚ) ≠ 50 :=
  ⟨getNiceStepSize_100_5, by norm_num⟩

/-- Claim C3, amended: `getNiceStepSize(100, 5) = 20`, via `rawStep =
100 / 5 = 20`, `magnitude = 10 ^ (Int.log 10 20) = 10`, `normalized =
20 / 10 = 2`, `niceStep = 2`. -/
theorem claim3_amended :
    (100:ℚ) / 5 = 20
    ∧ Int.log 10 ((100:ℚ) / 5) = 1
    ∧ (10:ℚ) ^ (Int.log 10 ((100:ℚ) / 5)) = 10
    ∧ (100:ℚ) / 5 / 10 = 2
    ∧ getNiceStepSize 100 5 = 2 * 10 := by
  have hl : Int.log 10 ((100:ℚ)/5) = 1 :=
    int_log10_eq (by norm_num) (by norm_num) (by norm_num)
  refine ⟨by norm_num, hl, ?_, by norm_num, ?_⟩
  · rw [hl]
    norm_num
  · rw [getNiceStepSize_100_5]
    norm_num

-- ==== Claim C5 ====

/-- Claim C5, counterexample: for tick count 2 the effective
`targetSteps = tickCount - 1` is 1, yet the tick generator does not return
the single tick `[min]`: on domain `(0, 100)` with data maximum 100 it
calls the step selector (with `targetSteps = 1`) and returns `[0, 100]`. -/
theorem claim5_counterexample :
    calculateYAxisTicks 0 100 2 100 = [0, 100]
    ∧ ([0, 100] : List ℚ) ≠ [0] := by
  constructor
  · simp only [calculateYAxisTicks, walkedTicks_0_100_2]
    norm_num
  · simp

/-- Claim C5, amended: the guard in the tick generator is `tickCount ≤ 1`
(effective `targetSteps = tickCount - 1 ≤ 0`), in which case it returns the
single tick `[min]` without using the step selector; for every positive
range and positive target step count the step selector returns a positive
step, so the degenerate zero or negative step is unreachable from the other
branch (where `targetSteps = tickCount - 1 ≥ 1`). -/
theorem claim5_amended (mn mx dataMax range targetSteps : ℚ) (tickCount : ℕ) :
    (tickCount ≤ 1 → calculateYAxisTicks mn mx tickCount dataMax = [mn])
    ∧ (0 < range → 0 < targetSteps → 0 < getNiceStepSize range targetSteps) := by
  constructor
  · intro h
    simp only [calculateYAxisTicks, if_pos h]
  · intro h1 h2
    exact getNiceStepSize_pos h1 h2

/-- Claim C5, witness for the amended theorem: tick count 1 yields `[5]` on
the domain `(5, 9)`, and the step selector is positive at `(1, 1)`. -/
theorem claim5_amended_witness :
    calculateYAxisTicks 5 9 1 7 = [5] ∧ 0 < getNiceStepSize 1 1 :=
  ⟨(claim5_amended 5 9 7 1 1 1).1 (by norm_num),
   (claim5_amended 5 9 7 1 1 1).2 (by norm_num) (by norm_num)⟩

-- ==== Claim C7 ====

/-- Claim C7: on the main path (`tickCount ≥ 2`, `min < max`), the tick
generator appends exactly the one tick `lastTick + step` when
`0 < dataMax - lastTick < step * 0.1`, and returns the walked list
unchanged in every other case (including the empty walk, where the source
reads `undefined` as the last tick and the comparisons fail). -/
theorem claim7_extra_tick (mn mx dataMax : ℚ) (tickCount : ℕ)
    (ht : 2 ≤ tickCount) (hlt : mn < mx) :
    (∀ lastTick, (walkedTicks mn mx tickCount).getLast? = some lastTick →
      ((0 < dataMax - lastTick
          ∧ dataMax - lastTick < stepSize mn mx tickCount * (1/10)) →
        calculateYAxisTicks mn mx tickCount dataMax
          = walkedTicks mn mx tickCount ++ [lastTick + stepSize mn mx tickCount])
      ∧ (¬(0 < dataMax - lastTick
          ∧ dataMax - lastTick < stepSize mn mx tickCount * (1/10)) →
        calculateYAxisTicks mn mx tickCount dataMax = walkedTicks mn mx tickCount))
    ∧ ((walkedTicks mn mx tickCount).getLast? = none →
        calculateYAxisTicks mn mx tickCount dataMax = walkedTicks mn mx tickCount) := by
  have h1 : ¬ tickCount ≤ 1 := by omega
  constructor
  · intro lastTick hg
    constructor
    · intro hcond
      simp only [calculateYAxisTicks, if_neg h1, if_pos hlt, hg]
      rw [if_pos hcond]
    · intro hcond
      simp only [calculateYAxisTicks, if_neg h1, if_pos hlt, hg]
      rw [if_neg hcond]
  · intro hg
    simp only [calculateYAxisTicks, if_neg h1, if_pos hlt, hg]

/-- Claim C7, witness at domain `(0, 100)`, tick count 6, data maximum 97:
the walk is `[0, 20, 40, 60, 80, 100]` and `97 - 100 < 0`, so no extra tick
is appended. -/
theorem claim7_extra_tick_witness :
    calculateYAxisTicks 0 100 6 97 = walkedTicks 0 100 6 :=
  ((claim7_extra_tick 0 100 97 6 (by norm_num) (by norm_num)).1 100
    (by rw [walkedTicks_0_100_6]; rfl)).2 (by norm_num)

-- ==== Scan lemmas ====

/-- A fold of an always-`some` step is `some` when the start is `some` or
the list is non-empty. -/
lemma foldl_step_isSome {α : Type} (step : Option ℚ → α → Option ℚ)
    (hstep : ∀ a v, (step a v).isSome) :
    ∀ (l : List α) (a : Option ℚ), (a.isSome ∨ l ≠ []) → (l.foldl step a).isSome := by
  intro l
  induction l with
  | nil =>
    intro a h
    rcases h with h | h
    · simpa using h
    · simp at h
  | cons x xs ih =>
    intro a h
    simp only [List.foldl_cons]
    exact ih (step a x) (Or.inl (hstep a x))

lemma foldl_id {α β : Type} : ∀ (l : List α) (a : β), l.foldl (fun acc _ => acc) a = a := by
  intro l
  induction l with
  | nil => simp
  | cons x xs ih =>
    intro a
    simp only [List.foldl_cons]
    exact ih a

lemma jsMin_isSome (a : Option ℚ) (v : ℚ) : (jsMin a v).isSome := by
  cases a <;> simp [jsMin]

lemma jsMax_isSome (a : Option ℚ) (v : ℚ) : (jsMax a v).isSome := by
  cases a <;> simp [jsMax]

/-- The scanned minimum is missing exactly when no `(item, key)` pair was
visited: empty data or an empty key set. -/
lemma scanMin_eq_none_iff (data : List Point) (dataKeys : List String) :
    scanMin data dataKeys = none ↔ data = [] ∨ dataKeys = [] := by
  constructor
  · intro h
    by_contra hc
    push_neg at hc
    obtain ⟨hd, hk⟩ := hc
    have hsome : (scanMin data dataKeys).isSome := by
      apply foldl_step_isSome _ _ data none (Or.inr hd)
      intro a item
      exact foldl_step_isSome _ (fun a' k => jsMin_isSome a' (getNum item k)) dataKeys a
        (Or.inr hk)
    rw [h] at hsome
    simp at hsome
  · intro h
    rcases h with h | h
    · subst h
      rfl
    · subst h
      simp only [scanMin, List.foldl_nil]
      exact foldl_id data none

/-- The scanned maximum is missing exactly when no `(item, key)` pair was
visited: empty data or an empty key set. -/
lemma scanMax_eq_none_iff (data : List Point) (dataKeys : List String) :
    scanMax data dataKeys = none ↔ data = [] ∨ dataKeys = [] := by
  constructor
  · intro h
    by_contra hc
    push_neg at hc
    obtain ⟨hd, hk⟩ := hc
    have hsome : (scanMax data dataKeys).isSome := by
      apply foldl_step_isSome _ _ data none (Or.inr hd)
      intro a item
      exact foldl_step_isSome _ (fun a' k => jsMax_isSome a' (getNum item k)) dataKeys a
        (Or.inr hk)
    rw [h] at hsome
    simp at hsome
  · intro h
    rcases h with h | h
    · subst h
      rfl
    · subst h
      simp only [scanMax, List.foldl_nil]
      exact foldl_id data none

-- ==== Claim C10 ====

/-- Claim C10: `calculateNiceYDomain` returns the fallback `[0, 100]`
exactly when nothing was scanned (empty data or empty key set); otherwise it
computes the padded-and-rounded domain from the scanned minimum and maximum,
never taking the fallback branch. -/
theorem claim10_fallback (data : List Point) (dataKeys : List String) (padding : ℚ) :
    (data = [] ∨ dataKeys = [] →
      calculateNiceYDomain data dataKeys padding = (0, 100))
    ∧ (data ≠ [] → dataKeys ≠ [] →
      ∃ mn mx, scanMin data dataKeys = some mn ∧ scanMax data dataKeys = some mx
        ∧ calculateNiceYDomain data dataKeys padding = niceDomainFrom mn mx padding) := by
  constructor
  · intro h
    have hmin : scanMin data dataKeys = none := (scanMin_eq_none_iff data dataKeys).2 h
    simp [calculateNiceYDomain, hmin]
  · intro hd hk
    have hmin : scanMin data dataKeys ≠ none := by
      intro h
      rcases (scanMin_eq_none_iff data dataKeys).1 h with h | h
      · exact hd h
      · exact hk h
    have hmax : scanMax data dataKeys ≠ none := by
      intro h
      rcases (scanMax_eq_none_iff data dataKeys).1 h with h | h
      · exact hd h
      · exact hk h
    obtain ⟨mn, hmn⟩ : ∃ mn, scanMin data dataKeys = some mn := by
      rcases hsm : scanMin data dataKeys with _ | mn
      · exact absurd hsm hmin
      · exact ⟨mn, rfl⟩
    obtain ⟨mx, hmx⟩ : ∃ mx, scanMax data dataKeys = some mx := by
      rcases hsm : scanMax data dataKeys with _ | mx
      · exact absurd hsm hmax
      · exact ⟨mx, rfl⟩
    refine ⟨mn, mx, hmn, hmx, ?_⟩
    simp [calculateNiceYDomain, hmn, hmx]

/-- Claim C10, witness: empty data gives the fallback, and the singleton
data point `{a: 7}` with key set `["a"]` goes through the scanned path. -/
theorem claim10_fallback_witness :
    calculateNiceYDomain [] ["a"] (1/10) = (0, 100)
    ∧ ∃ mn mx, scanMin [[("a", JSVal.num 7)]] ["a"] = some mn
        ∧ scanMax [[("a", JSVal.num 7)]] ["a"] = some mx
        ∧ calculateNiceYDomain [[("a", JSVal.num 7)]] ["a"] (1/10)
          = niceDomainFrom mn mx (1/10) :=
  ⟨(claim10_fallback [] ["a"] (1/10)).1 (Or.inl rfl),
   (claim10_fallback [[("a", JSVal.num 7)]] ["a"] (1/10)).2 (by simp) (by simp)⟩

-- ==== Claim C4 ====

/-- Claim C4: when the caller supplies no padding fraction (no
`yAxisConfig` at all, or one without `padding`), the auto-domain path uses
the default padding `0.15 = 3/20`, and the padding step computes
`paddedMin = max(0, min - range * 0.15)` and `paddedMax = max + range * 0.15`
with `range = max - min`. -/
theorem claim4_default_padding :
    (∀ (data : List Point) (dataKeys : List String),
      yDomain data dataKeys none = calculateNiceYDomain data dataKeys (3/20))
    ∧ (∀ (data : List Point) (dataKeys : List String) (c : YAxisCfg),
      c.domain? = none → c.padding? = none →
      yDomain data dataKeys (some c) = calculateNiceYDomain data dataKeys (3/20))
    ∧ (∀ mn mx : ℚ, padDomain mn mx (3/20)
      = (max 0 (mn - (mx - mn) * (3/20)), mx + (mx - mn) * (3/20))) := by
  refine ⟨?_, ?_, ?_⟩
  · intro data dataKeys
    simp [yDomain, resolvedPadding, jsOr]
  · intro data dataKeys c hdom hpad
    simp [yDomain, resolvedPadding, jsOr, hdom, hpad]
  · intro mn mx
    simp [padDomain]

/-- Claim C4, witness: a config with `domain: "auto"` and no padding
resolves to padding `3/20`. -/
theorem claim4_default_padding_witness :
    yDomain [] [] (some ⟨none, none, none⟩) = calculateNiceYDomain [] [] (3/20) :=
  claim4_default_padding.2.1 [] [] ⟨none, none, none⟩ rfl rfl

-- ==== Claim C9 ====

/-- Claim C9: a caller-supplied `padding` of 0 resolves to the default
`0.15` and a caller-supplied `tickCount` of 0 resolves to the default 6
(they are resolved with `||` on a possibly-zero number), so an explicit
zero can never take effect: the resolved values are never 0. -/
theorem claim9_zero_config (c : YAxisCfg) :
    (c.padding? = some 0 → resolvedPadding (some c) = 3/20)
    ∧ (c.tickCount? = some 0 → resolvedTickCount (some c) = 6)
    ∧ resolvedPadding (some c) ≠ 0
    ∧ resolvedTickCount (some c) ≠ 0 := by
  refine ⟨?_, ?_, ?_, ?_⟩
  · intro h
    simp [resolvedPadding, jsOr, h]
  · intro h
    simp [resolvedTickCount, jsOr, h]
  · simp only [resolvedPadding, jsOr, Option.bind_eq_bind, Option.some_bind]
    cases c.padding? with
    | none => norm_num
    | some v =>
      dsimp only
      split
      · norm_num
      · assumption
  · simp only [resolvedTickCount, jsOr, Option.bind_eq_bind, Option.some_bind]
    cases c.tickCount? with
    | none => norm_num
    | some v =>
      dsimp only
      split
      · norm_num
      · assumption

/-- Claim C9, witness: the config `padding: 0, tickCount: 0` resolves to
the defaults `3/20` and 6. -/
theorem claim9_zero_config_witness :
    resolvedPadding (some ⟨none, some 0, some 0⟩) = 3/20
    ∧ resolvedTickCount (some ⟨none, some 0, some 0⟩) = 6 :=
  ⟨(claim9_zero_config ⟨none, some 0, some 0⟩).1 rfl,
   (claim9_zero_config ⟨none, some 0, some 0⟩).2.1 rfl⟩

-- ==== Claim C2 ====

lemma scanMin_neg_example :
    scanMin [[("a", JSVal.num (-30))], [("a", JSVal.num (-20))]] ["a"] = some (-30) := by
  simp [scanMin, jsMin, getNum, min_def]
  norm_num

lemma scanMax_neg_example :
    scanMax [[("a", JSVal.num (-30))], [("a", JSVal.num (-20))]] ["a"] = some (-20) := by
  simp [scanMax, jsMax, getNum, max_def]
  norm_num

lemma niceDomainFrom_neg_example : niceDomainFrom (-30) (-20) (1/10) = (0, -10) := by
  have hpad : padDomain (-30) (-20) (1/10) = (0, -19) := by
    simp only [padDomain, max_def]
    norm_num
  have hceil : (⌈-((19:ℚ)/10)⌉ : ℤ) = -1 := by
    rw [Int.ceil_eq_iff]
    norm_num
  simp only [niceDomainFrom, hpad]
  simp only [getRoundingFactor]
  norm_num [hceil]

/-- Claim C2: the invariant `niceMin ≤ niceMax` fails.  For the data
`[{a: -30}, {a: -20}]` with key set `["a"]` (every scanned value negative)
and the default padding `0.1`, `calculateNiceYDomain` returns `(0, -10)`:
the clamp `Math.max(0, ...)` forces `paddedMin = 0` while
`paddedMax = -19` rounds up to `-10`, an inverted domain. -/
theorem claim2_invariant_bug :
    calculateNiceYDomain [[("a", JSVal.num (-30))], [("a", JSVal.num (-20))]] ["a"] (1/10)
      = (0, -10)
    ∧ ¬ ((0:ℚ) ≤ -10) := by
  constructor
  · simp only [calculateNiceYDomain, scanMin_neg_example, scanMax_neg_example]
    exact niceDomainFrom_neg_example
  · norm_num

-- ==== Association-list lemmas for the normalizer ====

lemma lookup_isSome_of_mem :
    ∀ (p : Point) (k : String) (b : JSVal), (k, b) ∈ p → (p.lookup k).isSome := by
  intro p
  induction p with
  | nil =>
    intro k b hb
    simp at hb
  | cons hd tl ih =>
    intro k b hb
    obtain ⟨a, c⟩ := hd
    rw [List.lookup_cons]
    by_cases hk : k = a
    · simp [hk]
    · have : (k == a) = false := beq_false_of_ne hk
      rw [this]
      rcases List.mem_cons.1 hb with h1 | h1
      · exact absurd (congrArg Prod.fst h1) hk
      · exact ih k b h1

lemma not_mem_of_lookup_eq_none {p : Point} {k : String}
    (h : p.lookup k = none) : ∀ b, (k, b) ∉ p := by
  intro b hb
  have := lookup_isSome_of_mem p k b hb
  rw [h] at this
  simp at this

lemma lookup_map_set_self (k : String) (v : JSVal) :
    ∀ (p : Point), (p.lookup k).isSome →
      (p.map (fun kv => if kv.1 = k then (k, v) else kv)).lookup k = some v := by
  intro p
  induction p with
  | nil =>
    intro h
    simp at h
  | cons hd tl ih =>
    intro h
    obtain ⟨a, c⟩ := hd
    by_cases hk : a = k
    · subst hk
      simp [List.lookup_cons]
    · have hne : (k == a) = false := beq_false_of_ne (fun he => hk he.symm)
      simp only [List.map_cons, if_neg hk]
      rw [List.lookup_cons, hne]
      apply ih
      rw [List.lookup_cons, hne] at h
      exact h

lemma lookup_append_single_self (k : String) (v : JSVal) :
    ∀ (p : Point), p.lookup k = none → (p ++ [(k, v)]).lookup k = some v := by
  intro p
  induction p with
  | nil => simp [List.lookup_cons]
  | cons hd tl ih =>
    intro h
    obtain ⟨a, c⟩ := hd
    rw [List.lookup_cons] at h
    rcases hba : (k == a) with _ | _
    · rw [hba] at h
      rw [List.cons_append, List.lookup_cons, hba]
      exact ih h
    · rw [hba] at h
      simp at h

lemma lookup_objSet_self (p : Point) (k : String) (v : JSVal) :
    (objSet p k v).lookup k = some v := by
  unfold objSet
  split
  · exact lookup_map_set_self k v p (by assumption)
  · have hnone : p.lookup k = none := by
      rcases h : p.lookup k with _ | w
      · rfl
      · rename_i hcontra
        rw [h] at hcontra
        simp at hcontra
    exact lookup_append_single_self k v p hnone

lemma lookup_map_set_ne {k' k : String} (hne : k' ≠ k) (v : JSVal) :
    ∀ (p : Point),
      (p.map (fun kv => if kv.1 = k then (k, v) else kv)).lookup k' = p.lookup k' := by
  intro p
  induction p with
  | nil => simp
  | cons hd tl ih =>
    obtain ⟨a, c⟩ := hd
    by_cases hk : a = k
    · subst hk
      have hba : (k' == a) = false := beq_false_of_ne hne
      simpa [List.lookup_cons, hba] using ih
    · simp only [List.map_cons, if_neg hk]
      rw [List.lookup_cons, List.lookup_cons]
      rcases hba : (k' == a) with _ | _
      · exact ih
      · rfl

lemma lookup_append_single_ne {k' k : String} (hne : k' ≠ k) (v : JSVal) :
    ∀ (p : Point), (p ++ [(k, v)]).lookup k' = p.lookup k' := by
  intro p
  induction p with
  | nil =>
    have hba : (k' == k) = false := beq_false_of_ne hne
    simp [List.lookup_cons, hba]
  | cons hd tl ih =>
    obtain ⟨a, c⟩ := hd
    rw [List.cons_append, List.lookup_cons, List.lookup_cons]
    rcases hba : (k' == a) with _ | _
    · exact ih
    · rfl

lemma lookup_objSet_ne {k' k : String} (hne : k' ≠ k) (p : Point) (v : JSVal) :
    (objSet p k v).lookup k' = p.lookup k' := by
  unfold objSet
  split
  · exact lookup_map_set_ne hne v p
  · exact lookup_append_single_ne hne v p

lemma mem_objSet {e : String × JSVal} {p : Point} {k : String} {v : JSVal}
    (h : e ∈ objSet p k v) : e = (k, v) ∨ (e ∈ p ∧ e.1 ≠ k) := by
  unfold objSet at h
  split at h
  · rw [List.mem_map] at h
    obtain ⟨kv, hkv, he⟩ := h
    by_cases hk : kv.1 = k
    · rw [if_pos hk] at he
      exact Or.inl he.symm
    · rw [if_neg hk] at he
      subst he
      exact Or.inr ⟨hkv, hk⟩
  · rename_i habs
    rcases List.mem_append.1 h with h1 | h1
    · right
      refine ⟨h1, ?_⟩
      intro hke
      have hnone : p.lookup k = none := by
        rcases hl : p.lookup k with _ | w
        · rfl
        · rw [hl] at habs
          simp at habs
      have := not_mem_of_lookup_eq_none hnone e.2
      rw [← hke] at this
      exact this (by simpa using h1)
    · rw [List.mem_singleton] at h1
      exact Or.inl h1

/-- Looking up after the write loop: a key in the written set holds its
written value (computed from the original item, so duplicates in the key
list rewrite the same value); other keys are untouched. -/
lemma lookup_foldl_objSet (g : String → JSVal) :
    ∀ (keys : List String) (acc : Point) (k : String),
      ((keys.foldl (fun a k' => objSet a k' (g k')) acc).lookup k)
        = if k ∈ keys then some (g k) else acc.lookup k := by
  intro keys
  induction keys with
  | nil =>
    intro acc k
    simp
  | cons k0 rest ih =>
    intro acc k
    simp only [List.foldl_cons]
    rw [ih]
    by_cases hmem : k ∈ rest
    · rw [if_pos hmem, if_pos (List.mem_cons_of_mem k0 hmem)]
    · rw [if_neg hmem]
      by_cases hk : k = k0
      · subst hk
        rw [if_pos (List.mem_cons_self k rest)]
        exact lookup_objSet_self acc k (g k)
      · have : k ∉ k0 :: rest := by
          simp [hk, hmem]
        rw [if_neg this]
        exact lookup_objSet_ne hk acc (g k0)

/-- Every entry produced by the write loop is either a written entry
(carrying the written value of its key) or an untouched entry of the
accumulator whose key is outside the written set. -/
lemma mem_foldl_objSet (g : String → JSVal) :
    ∀ (keys : List String) (acc : Point) (e : String × JSVal),
      e ∈ keys.foldl (fun a k' => objSet a k' (g k')) acc →
      (e.1 ∈ keys ∧ e.2 = g e.1) ∨ e ∈ acc := by
  intro keys
  induction keys with
  | nil =>
    intro acc e he
    exact Or.inr (by simpa using he)
  | cons k0 rest ih =>
    intro acc e he
    simp only [List.foldl_cons] at he
    rcases ih (objSet acc k0 (g k0)) e he with h1 | h1
    · exact Or.inl ⟨List.mem_cons_of_mem k0 h1.1, h1.2⟩
    · rcases mem_objSet h1 with h2 | h2
      · subst h2
        exact Or.inl ⟨List.mem_cons_self k0 rest, rfl⟩
      · exact Or.inr h2.1

/-- After the write loop, every entry whose key is in the written set holds
the written value of its key. -/
lemma foldl_objSet_all_eq (g : String → JSVal) :
    ∀ (keys : List String) (acc : Point) (k : String), k ∈ keys →
      ∀ b, (k, b) ∈ keys.foldl (fun a k' => objSet a k' (g k')) acc → b = g k := by
  intro keys
  induction keys with
  | nil =>
    intro acc k hk
    simp at hk
  | cons k0 rest ih =>
    intro acc k hk b hb
    simp only [List.foldl_cons] at hb
    by_cases hkr : k ∈ rest
    · exact ih (objSet acc k0 (g k0)) k hkr b hb
    · have hk0 : k = k0 := by
        rcases List.mem_cons.1 hk with h | h
        · exact h
        · exact absurd h hkr
      subst hk0
      rcases mem_foldl_objSet g rest (objSet acc k (g k)) (k, b) hb with h1 | h1
      · exact absurd h1.1 hkr
      · rcases mem_objSet h1 with h2 | h2
        · exact congrArg Prod.snd h2
        · exact absurd rfl h2.2

/-- Writing a value that every entry of the key already holds is the
identity. -/
lemma objSet_id {p : Point} {k : String} {v : JSVal}
    (hs : (p.lookup k).isSome) (hall : ∀ b, (k, b) ∈ p → b = v) :
    objSet p k v = p := by
  unfold objSet
  rw [if_pos hs]
  have : ∀ kv ∈ p, (if kv.1 = k then (k, v) else kv) = kv := by
    intro kv hkv
    by_cases hk : kv.1 = k
    · rw [if_pos hk]
      obtain ⟨a, b⟩ := kv
      simp only at hk
      subst hk
      rw [hall b hkv]
    · rw [if_neg hk]
  calc p.map (fun kv => if kv.1 = k then (k, v) else kv)
      = p.map id := List.map_congr_left this
    _ = p := List.map_id p

/-- A write loop whose every write stores the value the point already holds
(at a key the point has) is the identity. -/
lemma foldl_objSet_id (h : String → JSVal) :
    ∀ (keys : List String) (p : Point),
      (∀ k ∈ keys, p.lookup k = some (h k)) →
      (∀ k ∈ keys, ∀ b, (k, b) ∈ p → b = h k) →
      keys.foldl (fun a k => objSet a k (h k)) p = p := by
  intro keys
  induction keys with
  | nil =>
    intro p _ _
    rfl
  | cons k0 rest ih =>
    intro p hlook hall
    simp only [List.foldl_cons]
    have h0 : objSet p k0 (h k0) = p := by
      apply objSet_id
      · rw [hlook k0 (List.mem_cons_self k0 rest)]
        rfl
      · exact hall k0 (List.mem_cons_self k0 rest)
    rw [h0]
    exact ih p (fun k hk => hlook k (List.mem_cons_of_mem k0 hk))
      (fun k hk => hall k (List.mem_cons_of_mem k0 hk))

/-- The running total is the sum of the coerced values over the key list. -/
lemma foldl_add_eq (f : String → ℚ) :
    ∀ (l : List String) (c : ℚ), l.foldl (fun s k => s + f k) c = c + (l.map f).sum := by
  intro l
  induction l with
  | nil =>
    intro c
    simp
  | cons x xs ih =>
    intro c
    simp only [List.foldl_cons, List.map_cons, List.sum_cons]
    rw [ih]
    ring

lemma pointTotal_eq_sum (item : Point) (dataKeys : List String) :
    pointTotal item dataKeys = (dataKeys.map (fun k => numOr0 (item.lookup k))).sum := by
  unfold pointTotal
  rw [foldl_add_eq]
  ring

lemma numOr0_num (q : ℚ) : numOr0 (some (JSVal.num q)) = q := rfl

lemma normalizePoint_pos (item : Point) (dataKeys : List String)
    (h : 0 < pointTotal item dataKeys) :
    normalizePoint item dataKeys
      = dataKeys.foldl (fun a k => objSet a k
          (JSVal.num (numOr0 (item.lookup k) / pointTotal item dataKeys * 100))) item := by
  simp only [normalizePoint, if_pos h]

-- ==== Claim C6 ====

/-- Claim C6: for every point of the data, the normalizer computes the
total as the sum of the coerced values at the given keys; if the total is
positive it replaces each key with `value / total * 100`, and if the total
is zero the point is returned unchanged (the division is never reached). -/
theorem claim6_normalizer (data : List Point) (dataKeys : List String) (i : ℕ)
    (item : Point) (hi : data[i]? = some item) :
    pointTotal item dataKeys = (dataKeys.map (fun k => numOr0 (item.lookup k))).sum
    ∧ (0 < pointTotal item dataKeys →
        ∃ item', (normalizedData data dataKeys)[i]? = some item'
          ∧ ∀ k ∈ dataKeys, item'.lookup k
              = some (JSVal.num (numOr0 (item.lookup k) / pointTotal item dataKeys * 100)))
    ∧ (pointTotal item dataKeys = 0 →
        (normalizedData data dataKeys)[i]? = some item) := by
  have hmap : (normalizedData data dataKeys)[i]? = some (normalizePoint item dataKeys) := by
    simp [normalizedData, List.getElem?_map, hi]
  refine ⟨pointTotal_eq_sum item dataKeys, ?_, ?_⟩
  · intro hpos
    refine ⟨normalizePoint item dataKeys, hmap, ?_⟩
    intro k hk
    rw [normalizePoint_pos item dataKeys hpos, lookup_foldl_objSet, if_pos hk]
  · intro h0
    rw [hmap]
    congr 1
    simp only [normalizePoint]
    rw [if_neg (by rw [h0]; norm_num)]

/-- Claim C6, witness at the point `{x: 1, y: 3}` (total 4): the values
become `x/4*100 = 25` and `y/4*100 = 75`. -/
theorem claim6_normalizer_witness :
    ∃ item', (normalizedData [[("x", JSVal.num 1), ("y", JSVal.num 3)]] ["x", "y"])[0]?
        = some item'
      ∧ ∀ k ∈ ["x", "y"], item'.lookup k
          = some (JSVal.num
              (numOr0 (([("x", JSVal.num 1), ("y", JSVal.num 3)] : Point).lookup k)
                / pointTotal [("x", JSVal.num 1), ("y", JSVal.num 3)] ["x", "y"] * 100)) :=
  (claim6_normalizer [[("x", JSVal.num 1), ("y", JSVal.num 3)]] ["x", "y"] 0
    [("x", JSVal.num 1), ("y", JSVal.num 3)] rfl).2.1
    (by norm_num [pointTotal, numOr0, List.lookup_cons,
      (by decide : (("y":String) == "x") = false)])

-- ==== Claim C8 ====

lemma normalizePoint_idem (item : Point) (dataKeys : List String)
    (htot : pointTotal item dataKeys = 100) :
    normalizePoint (normalizePoint item dataKeys) dataKeys
      = normalizePoint item dataKeys := by
  have h100 : (100:ℚ) ≠ 0 := by norm_num
  have hpos : 0 < pointTotal item dataKeys := by
    rw [htot]
    norm_num
  have hfold : normalizePoint item dataKeys
      = dataKeys.foldl (fun a k => objSet a k
          (JSVal.num (numOr0 (item.lookup k) / pointTotal item dataKeys * 100))) item :=
    normalizePoint_pos item dataKeys hpos
  have hlook : ∀ k ∈ dataKeys, (normalizePoint item dataKeys).lookup k
      = some (JSVal.num (numOr0 (item.lookup k))) := by
    intro k hk
    rw [hfold, lookup_foldl_objSet, if_pos hk, htot, div_mul_cancel₀ _ h100]
  have hall : ∀ k ∈ dataKeys, ∀ b, (k, b) ∈ normalizePoint item dataKeys
      → b = JSVal.num (numOr0 (item.lookup k)) := by
    intro k hk b hb
    rw [hfold] at hb
    have := foldl_objSet_all_eq _ dataKeys item k hk b hb
    rw [this, htot, div_mul_cancel₀ _ h100]
  have htot' : pointTotal (normalizePoint item dataKeys) dataKeys = 100 := by
    rw [pointTotal_eq_sum]
    have hcg : ∀ k ∈ dataKeys,
        numOr0 ((normalizePoint item dataKeys).lookup k) = numOr0 (item.lookup k) := by
      intro k hk
      rw [hlook k hk, numOr0_num]
    rw [List.map_congr_left hcg, ← pointTotal_eq_sum, htot]
  have hpos' : 0 < pointTotal (normalizePoint item dataKeys) dataKeys := by
    rw [htot']
    norm_num
  rw [normalizePoint_pos _ dataKeys hpos', htot']
  apply foldl_objSet_id
  · intro k hk
    rw [hlook k hk]
    rw [numOr0_num, div_mul_cancel₀ _ h100]
  · intro k hk b hb
    rw [hall k hk b hb, hlook k hk]
    rw [numOr0_num, div_mul_cancel₀ _ h100]

/-- Claim C8: on point sequences whose values at the given keys already sum
to 100 per point, the percentage normalizer is idempotent (in exact
arithmetic): normalizing a normalized sequence returns the same values. -/
theorem claim8_idempotent (data : List Point) (dataKeys : List String)
    (h : ∀ item ∈ data, pointTotal item dataKeys = 100) :
    normalizedData (normalizedData data dataKeys) dataKeys
      = normalizedData data dataKeys := by
  unfold normalizedData
  rw [List.map_map]
  apply List.map_congr_left
  intro item hitem
  simp only [Function.comp_apply]
  exact normalizePoint_idem item dataKeys (h item hitem)

/-- Claim C8, witness at the already-normalized point `{x: 25, y: 75}`. -/
theorem claim8_idempotent_witness :
    normalizedData (normalizedData [[("x", JSVal.num 25), ("y", JSVal.num 75)]] ["x", "y"])
        ["x", "y"]
      = normalizedData [[("x", JSVal.num 25), ("y", JSVal.num 75)]] ["x", "y"] :=
  claim8_idempotent [[("x", JSVal.num 25), ("y", JSVal.num 75)]] ["x", "y"] (by
    intro item hitem
    simp only [List.mem_singleton] at hitem
    subst hitem
    norm_num [pointTotal, numOr0, List.lookup_cons,
      (by decide : (("y":String) == "x") = false)])
